import Mathlib

/-!
Shallow embedding of `bell_curve_test7.py` (a Streamlit bell-curve report
script) together with proofs about its statistical core.

Modelling conventions:
* pandas/python floats are modelled by `ℚ` (the spec treats values as real
  numbers; all claims are exact-arithmetic claims);
* a pandas timestamp is modelled by a calendar date `Date` (year, month, day)
  compared lexicographically, which is how timestamps compare;
* a pandas `DataFrame` row carries its index *label* (assigned by `read_csv`
  as the 0-based CSV row position and preserved by `sort_values` and boolean
  filtering); `Row.label` models that label, while positional access
  (`.iloc`) is modelled by positional list access;
* `NaN` results (e.g. `Series.std()` with fewer than two rows) are modelled
  by `Option.none`;
* sorting: `sort_values` / the numpy ascending value sort are modelled by an
  insertion sort, stable in the date case and canonical in the value case
  (for a list of rationals every comparison sort returns the same list).
-/

namespace BellCurve

/-- A calendar date (models the day-resolution `pd.Timestamp` values produced
by `pd.to_datetime` on the `Date` column). -/
structure Date where
  year : ℕ
  month : ℕ
  day : ℕ
deriving DecidableEq, Repr

/-- Lexicographic comparison of dates: exactly how chronological order
compares calendar dates (and how pandas timestamps compare). -/
def Date.le (a b : Date) : Bool :=
  decide (a.year < b.year) ||
    (decide (a.year = b.year) &&
      (decide (a.month < b.month) ||
        (decide (a.month = b.month) && decide (a.day ≤ b.day))))

theorem Date.le_refl (a : Date) : Date.le a a = true := by
  simp [Date.le]

/-- One observation: a date and a numeric `NetMargin` value. -/
structure Observation where
  date : Date
  value : ℚ
deriving DecidableEq, Repr

/-- One row of the working `DataFrame`: an observation together with its
pandas index label (the original 0-based CSV row position, which
`sort_values` and filtering preserve). -/
structure Row where
  label : ℕ
  date : Date
  value : ℚ
deriving DecidableEq, Repr

/-- Model of `read_csv` labelling: it assigns the default `RangeIndex`: row `i` of the CSV gets
label `i`. -/
def labelRows (rows : List (Date × ℚ)) : List Row :=
  rows.enum.map (fun p => ⟨p.1, p.2.1, p.2.2⟩)

/-- Insert a row into a list sorted by date, after all rows with an earlier
or equal date. -/
def insertByDate (r : Row) : List Row → List Row
  | [] => [r]
  | x :: xs => if Date.le x.date r.date then x :: insertByDate r xs else r :: x :: xs

/-- Model of `data.sort_values(by="Date")`: a sort by date that keeps the
index label of each row.  The relative order of rows with equal dates is not
relied upon by any theorem (the pandas default quicksort gives no tie-order
contract either); every frame a theorem evaluates has pairwise distinct
dates. -/
def sortByDate (l : List Row) : List Row :=
  l.foldr insertByDate []

/-- Model of `combined_data[combined_data["Date"] <= selected_date]`
(line 66): keep exactly the rows dated at or before the cutoff. -/
def filterRows (cutoff : Date) (l : List Row) : List Row :=
  l.filter (fun r => Date.le r.date cutoff)

/-- Embedding of `calculate_bins` (lines 12-14): `int(np.ceil(np.log2(n) + 1))`, the Sturges
rule, on the length of the data.  `⌈log2 n⌉` is written with `Nat.clog`;
the claim theorem proves this equals `⌈Real.logb 2 n + 1⌉` for `n ≥ 1`. -/
def calculate_bins (data : List ℚ) : ℕ :=
  Nat.clog 2 data.length + 1

/-- Embedding of `calculate_percentile` (lines 17-20): `rank = data[data <= value].count()`
then `(rank / len(data)) * 100`. -/
def calculate_percentile (value : ℚ) (data : List ℚ) : ℚ :=
  ((data.countP (fun x => decide (x ≤ value)) : ℚ) / (data.length : ℚ)) * 100

/-- Model of `Series.abs()` on a single value.  (Agrees with `|·|`; written with an
`if` so that concrete frames evaluate inside the kernel.) -/
def ratAbs (q : ℚ) : ℚ :=
  if q < 0 then -q else q

theorem ratAbs_eq_abs (q : ℚ) : ratAbs q = |q| := by
  unfold ratAbs
  by_cases h : q < 0
  · rw [if_pos h, abs_of_neg h]
  · rw [if_neg h, abs_of_nonneg (le_of_not_lt h)]

/-- Fold step of the scan behind `Series.idxmin()` on
`(data["NetMargin"] - t).abs()`: keep the current best row, replacing it only
on a strictly smaller absolute difference, so the first minimizer in row
order wins. -/
def nearestBest (t : ℚ) (best : Row) : List Row → Row
  | [] => best
  | r :: rs =>
    nearestBest t (if ratAbs (r.value - t) < ratAbs (best.value - t) then r else best) rs

/-- Model of `(data["NetMargin"] - t).abs().idxmin()`: the index *label* of the first
row minimizing the absolute difference (`none` on an empty frame). -/
def idxminAbs (t : ℚ) : List Row → Option ℕ
  | [] => none
  | r :: rs => some (nearestBest t r rs).label

/-- Embedding of `find_nearest_value_and_date` (lines 23-25):
`data.iloc[(data["NetMargin"] - t).abs().idxmin()]` — note that `idxmin`
returns an index label while `iloc` indexes by *position*; `none` models the
`IndexError` raised when the label is not a valid position. -/
def find_nearest_value_and_date (t : ℚ) (df : List Row) : Option (ℚ × Date) :=
  match idxminAbs t df with
  | none => none
  | some lbl => (df.get? lbl).map (fun r => (r.value, r.date))

/-- Insert a value into an ascending list of rationals. -/
def insertVal (x : ℚ) : List ℚ → List ℚ
  | [] => [x]
  | y :: ys => if decide (y ≤ x) then y :: insertVal x ys else x :: y :: ys

/-- Ascending sort of the values, as numpy performs internally before taking
a percentile.  On a list of rationals every comparison sort returns this
same list, so insertion sort is a faithful model. -/
def sortVals (l : List ℚ) : List ℚ :=
  l.foldr insertVal []

/-- Model of `np.percentile(data, p)` with the default `linear` interpolation method:
position `pos = p/100 * (n-1)` over the ascending order statistics, result
`s[⌊pos⌋] + (pos - ⌊pos⌋) * (s[⌈pos⌉] - s[⌊pos⌋])`. -/
def np_percentile (p : ℚ) (data : List ℚ) : ℚ :=
  let s := sortVals data
  let pos : ℚ := p / 100 * ((s.length : ℚ) - 1)
  let lo := s.getD (⌊pos⌋.toNat) 0
  let hi := s.getD (⌈pos⌉.toNat) 0
  lo + (pos - ⌊pos⌋) * (hi - lo)

/-- The wording of the spec for the percentile threshold: "interpolate between
order statistics at position `(p/100)*(n-1)`", i.e. the convex combination
`(1 - frac) * s[⌊pos⌋] + frac * s[⌈pos⌉]`. -/
def percentile_interp_spec (p : ℚ) (data : List ℚ) : ℚ :=
  let s := sortVals data
  let pos : ℚ := p / 100 * ((s.length : ℚ) - 1)
  (1 - Int.fract pos) * s.getD (⌊pos⌋.toNat) 0 + Int.fract pos * s.getD (⌈pos⌉.toNat) 0

/-- Round half to even (numpy/pandas rounding), on `ℚ`. -/
def rhe (x : ℚ) : ℤ :=
  if Int.fract x = 1 / 2 then (if ⌊x⌋ % 2 = 0 then ⌊x⌋ else ⌊x⌋ + 1)
  else round x

/-- Model of `Series.round(2)` (line 57): round to two decimal places. -/
def round2 (x : ℚ) : ℚ :=
  (rhe (x * 100) : ℚ) / 100

/-- The character for a decimal digit (`0 ↦ '0'`, ..., `9 ↦ '9'`). -/
def digitCh (d : ℕ) : Char :=
  Char.ofNat (48 + d)

/-- The decimal digit denoted by a character. -/
def charVal (c : Char) : ℕ :=
  c.toNat - 48

/-- Decimal rendering of a natural number, most significant digit first;
the first argument is recursion fuel (any amount larger than the number
works). -/
def natCharsAux : ℕ → ℕ → List Char
  | 0, _ => []
  | fuel + 1, n =>
    if n < 10 then [digitCh n] else natCharsAux fuel (n / 10) ++ [digitCh (n % 10)]

/-- Decimal rendering of a natural number (as Python `str` renders it). -/
def natToChars (n : ℕ) : List Char :=
  natCharsAux (n + 1) n

/-- Decimal parsing of a digit string, most significant digit first (as
`int`/`float` parse digit runs). -/
def charsToNat (cs : List Char) : ℕ :=
  cs.foldl (fun a c => 10 * a + charVal c) 0

/-- Zero-padding to `k` characters, as `strftime` pads `%Y`/`%m`/`%d`. -/
def padChars (k n : ℕ) : List Char :=
  List.replicate (k - (natToChars n).length) '0' ++ natToChars n

/-- Model of `Timestamp.strftime("%Y-%m-%d")` (line 57): the ISO label of a
date. -/
def isoChars (dt : Date) : List Char :=
  padChars 4 dt.year ++ '-' :: (padChars 2 dt.month ++ '-' :: padChars 2 dt.day)

/-- Model of Python `str.split(sep)` for a one-character separator, on
character lists. -/
def splitOnChar (sep : Char) : List Char → List (List Char)
  | [] => [[]]
  | c :: cs =>
    if c = sep then [] :: splitOnChar sep cs
    else
      match splitOnChar sep cs with
      | [] => [[c]]
      | p :: ps => (c :: p) :: ps

/-- Model of Python `str.strip()` restricted to the space character (the
only whitespace the labels contain). -/
def stripChars (cs : List Char) : List Char :=
  ((cs.dropWhile (fun c => c == ' ')).reverse.dropWhile (fun c => c == ' ')).reverse

/-- Model of `pd.to_datetime` applied to an ISO `YYYY-MM-DD` string (line
63): split on the dashes and read the three components. -/
def parseIsoChars (cs : List Char) : Option Date :=
  match splitOnChar '-' cs with
  | [y, m, d] => some ⟨charsToNat y, charsToNat m, charsToNat d⟩
  | _ => none

/-- Decimal rendering of the rational `z / 100`, as Python renders the
rounded value `round(x, 2)` (sign, integer part, dot, fraction digits). -/
def ratCentiChars (z : ℤ) : List Char :=
  (if z < 0 then ['-'] else []) ++
    (natToChars (z.natAbs / 100) ++ '.' :: padChars 2 (z.natAbs % 100))

/-- Model of Python `float(s)` on an unsigned decimal string: integer part,
dot, fraction part scaled by its digit count. -/
def parseNonNegVal (cs : List Char) : Option ℚ :=
  match splitOnChar '.' cs with
  | [ip, fp] => some ((charsToNat ip : ℚ) + (charsToNat fp : ℚ) / (10 : ℚ) ^ fp.length)
  | _ => none

/-- Model of Python `float(s)` on an optionally signed decimal string
(line 62). -/
def parseValChars (cs : List Char) : Option ℚ :=
  match cs with
  | [] => none
  | c :: rest =>
    if c = '-' then (parseNonNegVal rest).map (fun q => -q) else parseNonNegVal (c :: rest)

/-- The dropdown label of an observation (line 57):
`strftime("%Y-%m-%d") + " | " + str(value.round(2))`. -/
def dropdownLabel (o : Observation) : List Char :=
  isoChars o.date ++ ' ' :: '|' :: ' ' :: ratCentiChars (rhe (o.value * 100))

/-- Re-parsing a selected label (lines 62-63): date substring before the
bar, value substring after it, both stripped. -/
def parseDropdownLabel (cs : List Char) : Option (Date × ℚ) :=
  match splitOnChar '|' cs with
  | [a, b] =>
    match parseIsoChars (stripChars a), parseValChars (stripChars b) with
    | some dt, some v => some (dt, v)
    | _, _ => none
  | _ => none

/-- Model of a fetched and parsed CSV: its column names and its typed
(date, value) payload; `none` at the call site models a fetch/parse
exception.  When a required column is missing the payload is never read,
so carrying typed rows is harmless. -/
structure RawFrame where
  columns : List String
  rows : List (Date × ℚ)

/-- Everything line 92-117 shows to the user for one rendered iteration. -/
structure RenderStats where
  bins : ℕ
  selectedDate : Date
  selectedValue : ℚ
  selectedPercentile : ℚ
  thresholds : List (ℚ × ℚ × Option (ℚ × Date))
  meanValue : ℚ
  variance : Option ℚ
deriving DecidableEq, Repr

/-- Outcome of one pipeline iteration: abort with a fetch error (lines
39-41), abort with a column validation error (lines 44-46), crash on an
empty frame (the selectbox yields no row), or render the full report. -/
inductive Outcome where
  | fetchError : Outcome
  | columnError : Outcome
  | emptyCrash : Outcome
  | rendered : RenderStats → Outcome
deriving DecidableEq, Repr

/-- Model of `Series.mean()`. -/
def listMean (l : List ℚ) : ℚ :=
  l.sum / (l.length : ℚ)

/-- Model of `Series.var()` with the pandas default `ddof=1` (the square of
`Series.std()`): `none` models the `NaN` returned when fewer than two rows
are present. -/
def sampleVariance (l : List ℚ) : Option ℚ :=
  if l.length ≤ 1 then none
  else some (((l.map (fun x => (x - listMean l) ^ 2)).sum) / ((l.length : ℚ) - 1))

/-- One iteration of `main` (lines 36-117): fetch, validate columns, sort,
select (the choice made in the widget is modelled as a position into the sorted rows,
defaulting to the first row when out of range), re-parse the label (value
rounded to 2 decimals, date exact), filter by date, compute all statistics,
render.  No check guards the degenerate single-row fit. -/
def runIteration (fetched : Option RawFrame) (choice : ℕ) : Outcome :=
  match fetched with
  | none => Outcome.fetchError
  | some frame =>
    if "NetMargin" ∉ frame.columns ∨ "Date" ∉ frame.columns then Outcome.columnError
    else
      match sortByDate (labelRows frame.rows) with
      | [] => Outcome.emptyCrash
      | first :: rest =>
        let sorted := first :: rest
        let sel := sorted.getD choice first
        let selectedValue := round2 sel.value
        let selectedDate := sel.date
        let filtered := filterRows selectedDate sorted
        let vals := filtered.map (fun r => r.value)
        Outcome.rendered
          { bins := calculate_bins vals
            selectedDate := selectedDate
            selectedValue := selectedValue
            selectedPercentile := calculate_percentile selectedValue vals
            thresholds := [50, 80, 90, 95, 99].map (fun p =>
              (p, np_percentile p vals,
                find_nearest_value_and_date (np_percentile p vals) filtered))
            meanValue := listMean vals
            variance := sampleVariance vals }

/-- Does the iteration reach the renderer? -/
def isRendered : Outcome → Bool
  | Outcome.rendered _ => true
  | _ => false

/-- The variance the renderer works with, when the iteration rendered. -/
def renderedVariance : Outcome → Option (Option ℚ)
  | Outcome.rendered s => some s.variance
  | _ => none

/- ### Claim C1: percentile rank -/

/-- Claim C1: for every non-empty series and value `v`, `calculate_percentile`
returns `100 * |{x ∈ S : x ≤ v}| / |S|` (inclusive comparison), lies in
`[0, 100]`, and equals `100` when `v` is at least every element (in
particular when `v` is the maximum value of the series). -/
theorem percentile_rank_spec (data : List ℚ) (v : ℚ) (hne : data ≠ []) :
    calculate_percentile v data
      = 100 * (data.countP (fun x => decide (x ≤ v)) : ℚ) / (data.length : ℚ)
    ∧ 0 ≤ calculate_percentile v data
    ∧ calculate_percentile v data ≤ 100
    ∧ ((∀ x ∈ data, x ≤ v) → calculate_percentile v data = 100) := by
  have hlen : 0 < data.length := List.length_pos.mpr hne
  have hlenQ : (0 : ℚ) < (data.length : ℚ) := by exact_mod_cast hlen
  refine ⟨by unfold calculate_percentile; ring, ?_, ?_, ?_⟩
  · unfold calculate_percentile
    have h0 : (0 : ℚ) ≤ (data.countP (fun x => decide (x ≤ v)) : ℚ) := by positivity
    positivity
  · unfold calculate_percentile
    have hle : (data.countP (fun x => decide (x ≤ v)) : ℚ) ≤ (data.length : ℚ) := by
      exact_mod_cast List.countP_le_length (fun x => decide (x ≤ v))
    have hdiv : (data.countP (fun x => decide (x ≤ v)) : ℚ) / (data.length : ℚ) ≤ 1 :=
      (div_le_one hlenQ).mpr hle
    calc (data.countP (fun x => decide (x ≤ v)) : ℚ) / (data.length : ℚ) * 100
        ≤ 1 * 100 := by nlinarith
      _ = 100 := by ring
  · intro hmax
    unfold calculate_percentile
    have hcnt : data.countP (fun x => decide (x ≤ v)) = data.length := by
      rw [List.countP_eq_length]
      intro a ha
      exact decide_eq_true (hmax a ha)
    rw [hcnt, div_self (ne_of_gt hlenQ)]
    ring

/-- Witness for C1 at a concrete input. -/
theorem percentile_rank_spec_witness :
    calculate_percentile 20 [(10 : ℚ), 20] = 100 :=
  (percentile_rank_spec [10, 20] 20 (by decide)).2.2.2 (by decide)

/- ### Claim C10: monotonicity and member positivity of the percentile rank -/

/-- Claim C10: for a fixed non-empty series, the percentile rank is monotone
non-decreasing in the queried value, and the rank of any member of the
series is at least `100 / |S|`, hence strictly positive. -/
theorem percentile_rank_monotone (data : List ℚ) (hne : data ≠ []) :
    (∀ v1 v2 : ℚ, v1 ≤ v2 →
        calculate_percentile v1 data ≤ calculate_percentile v2 data)
    ∧ (∀ v ∈ data, 100 / (data.length : ℚ) ≤ calculate_percentile v data
        ∧ 0 < calculate_percentile v data) := by
  have hlen : 0 < data.length := List.length_pos.mpr hne
  have hlenQ : (0 : ℚ) < (data.length : ℚ) := by exact_mod_cast hlen
  constructor
  · intro v1 v2 h12
    unfold calculate_percentile
    have hcnt : data.countP (fun x => decide (x ≤ v1))
        ≤ data.countP (fun x => decide (x ≤ v2)) := by
      refine List.countP_mono_left ?_
      intro x _ hx
      exact decide_eq_true (le_trans (of_decide_eq_true hx) h12)
    have hcntQ : (data.countP (fun x => decide (x ≤ v1)) : ℚ)
        ≤ (data.countP (fun x => decide (x ≤ v2)) : ℚ) := by exact_mod_cast hcnt
    gcongr
  · intro v hv
    have hcnt : 0 < data.countP (fun x => decide (x ≤ v)) :=
      List.countP_pos_iff.mpr ⟨v, hv, decide_eq_true le_rfl⟩
    have hcnt1 : (1 : ℚ) ≤ (data.countP (fun x => decide (x ≤ v)) : ℚ) := by
      exact_mod_cast hcnt
    constructor
    · have key : (100 : ℚ) / (data.length : ℚ) = 1 / (data.length : ℚ) * 100 := by
        ring
      rw [key]
      unfold calculate_percentile
      gcongr
    · unfold calculate_percentile
      have h1 : (0 : ℚ) < (data.countP (fun x => decide (x ≤ v)) : ℚ) := by
        exact_mod_cast hcnt
      positivity

/-- Witness for C10 at a concrete input. -/
theorem percentile_rank_monotone_witness :
    calculate_percentile 1 [(1 : ℚ), 3] ≤ calculate_percentile 3 [(1 : ℚ), 3]
    ∧ 0 < calculate_percentile 1 [(1 : ℚ), 3] :=
  ⟨(percentile_rank_monotone [1, 3] (by decide)).1 1 3 (by norm_num),
   ((percentile_rank_monotone [1, 3] (by decide)).2 1 (by decide)).2⟩

/- ### Claim C3: bin count by the Sturges rule -/

/-- Claim C3: for every dataset of size `n ≥ 1`, `calculate_bins` returns
`⌈log₂ n + 1⌉` (the Sturges rule); in particular `1` for `n = 1` and `5` for
`n = 16`. -/
theorem calculate_bins_sturges (data : List ℚ) (_hne : data ≠ []) :
    ((calculate_bins data : ℤ) = ⌈Real.logb 2 (data.length : ℝ) + 1⌉)
    ∧ (data.length = 1 → calculate_bins data = 1)
    ∧ (data.length = 16 → calculate_bins data = 5) := by
  refine ⟨?_, ?_, ?_⟩
  · have hb : (2 : ℝ) = ((2 : ℕ) : ℝ) := by norm_cast
    rw [Int.ceil_add_one, hb,
      Real.ceil_logb_natCast (by positivity), Int.clog_natCast]
    unfold calculate_bins
    push_cast
    ring
  · intro h1
    unfold calculate_bins
    rw [h1, Nat.clog_one_right]
  · intro h16
    unfold calculate_bins
    rw [h16]
    have : (16 : ℕ) = 2 ^ 4 := by norm_num
    rw [this, Nat.clog_pow 2 4 (by norm_num)]

/-- Witness for C3 at a concrete input of 16 elements. -/
theorem calculate_bins_sturges_witness :
    calculate_bins (List.replicate 16 (0 : ℚ)) = 5 :=
  (calculate_bins_sturges (List.replicate 16 (0 : ℚ)) (by decide)).2.2 (by decide)

/- ### Claim C7: percentile thresholds by linear interpolation -/

theorem insertVal_of_le (x : ℚ) (l : List ℚ) (h : ∀ y ∈ l, x ≤ y) :
    insertVal x l = x :: l := by
  induction l with
  | nil => rfl
  | cons y ys ih =>
    have hxy : x ≤ y := h y (List.mem_cons_self y ys)
    unfold insertVal
    by_cases hyx : y ≤ x
    · have hxyeq : x = y := le_antisymm hxy hyx
      rw [if_pos (decide_eq_true hyx), ih (fun z hz => h z (List.mem_cons_of_mem y hz))]
      rw [hxyeq]
    · rw [if_neg (by simpa using hyx)]

theorem sortVals_of_sorted (l : List ℚ) (h : List.Pairwise (· ≤ ·) l) :
    sortVals l = l := by
  induction l with
  | nil => rfl
  | cons a l ih =>
    rw [List.pairwise_cons] at h
    show insertVal a (sortVals l) = a :: l
    rw [ih h.2, insertVal_of_le a l h.1]

/-- Claim C7: for every series and every rank `p`, the percentile threshold
is the linear-interpolation percentile at position `(p/100)*(n-1)` between
ascending order statistics (stated as equality with the convex-combination
formulation of the spec, with no hypothesis); and for `p = 50` on a
non-empty sorted series of odd length it is exactly the middle element. -/
theorem percentile_threshold_interp (data : List ℚ) (p : ℚ) :
    np_percentile p data = percentile_interp_spec p data
    ∧ (data ≠ [] → List.Pairwise (· ≤ ·) data → Odd data.length →
        np_percentile 50 data = data.getD ((data.length - 1) / 2) 0) := by
  constructor
  · unfold np_percentile percentile_interp_spec
    simp only [Int.fract]
    ring
  · intro _hne hsorted hodd
    obtain ⟨k, hk⟩ := hodd
    have hsort : sortVals data = data := sortVals_of_sorted data hsorted
    unfold np_percentile
    rw [hsort]
    dsimp only
    have hpos : (50 : ℚ) / 100 * ((data.length : ℚ) - 1) = (k : ℚ) := by
      rw [hk]
      push_cast
      ring
    rw [hpos]
    have hfloor : ⌊(k : ℚ)⌋ = (k : ℤ) := Int.floor_natCast k
    have hidx : ((k : ℤ)).toNat = (data.length - 1) / 2 := by omega
    rw [hfloor, hidx]
    push_cast
    ring

/-- Witness for C7: the example from the spec, `[1,2,3,4,5]` has 50th percentile 3. -/
theorem percentile_threshold_interp_witness :
    np_percentile 50 [(1 : ℚ), 2, 3, 4, 5] = 3 := by
  have h := (percentile_threshold_interp [1, 2, 3, 4, 5] 50).2 (by decide)
    (by norm_num) (by decide)
  rw [h]
  rfl

/- ### Claim C4: the date filter -/

/-- Claim C4: for every series and every selected row that is a member of it,
the filter step produces exactly the rows dated at or before the selected
date, and the result is non-empty because the selected row itself passes the
predicate. -/
theorem filter_by_date_spec (s : List Row) (sel : Row) (hsel : sel ∈ s) :
    (∀ r : Row, r ∈ filterRows sel.date s ↔ r ∈ s ∧ Date.le r.date sel.date = true)
    ∧ filterRows sel.date s ≠ [] := by
  constructor
  · intro r
    unfold filterRows
    exact List.mem_filter
  · exact List.ne_nil_of_mem
      (List.mem_filter.mpr ⟨hsel, Date.le_refl sel.date⟩)

/-- Witness for C4 at a concrete input. -/
theorem filter_by_date_spec_witness :
    filterRows (⟨2024, 1, 2⟩ : Date) [(⟨0, ⟨2024, 1, 2⟩, 5⟩ : Row)] ≠ [] :=
  (filter_by_date_spec [⟨0, ⟨2024, 1, 2⟩, 5⟩] ⟨0, ⟨2024, 1, 2⟩, 5⟩ (by decide)).2

/- ### Claim C5: filtering at the maximum date is a no-op -/

/-- Claim C5: selecting the row with the maximum date makes the date filter a
no-op: the filtered series is the whole series. -/
theorem filter_latest_date_noop (s : List Row) (sel : Row) (_ : sel ∈ s)
    (hmax : ∀ r ∈ s, Date.le r.date sel.date = true) :
    filterRows sel.date s = s := by
  unfold filterRows
  exact List.filter_eq_self.mpr hmax

/-- Witness for C5 at a concrete input. -/
theorem filter_latest_date_noop_witness :
    filterRows (⟨2024, 1, 3⟩ : Date)
        [(⟨0, ⟨2024, 1, 1⟩, 1⟩ : Row), ⟨1, ⟨2024, 1, 3⟩, 2⟩]
      = [(⟨0, ⟨2024, 1, 1⟩, 1⟩ : Row), ⟨1, ⟨2024, 1, 3⟩, 2⟩] :=
  filter_latest_date_noop [⟨0, ⟨2024, 1, 1⟩, 1⟩, ⟨1, ⟨2024, 1, 3⟩, 2⟩]
    ⟨1, ⟨2024, 1, 3⟩, 2⟩ (by decide) (by decide)

/- ### Claim C6: the dropdown label round trip -/

theorem charVal_digitCh (d : ℕ) (hd : d < 10) : charVal (digitCh d) = d := by
  interval_cases d <;> decide

theorem digitCh_not_special (d : ℕ) (hd : d < 10) :
    digitCh d ≠ '-' ∧ digitCh d ≠ '.' ∧ digitCh d ≠ '|' ∧ (digitCh d == ' ') = false := by
  interval_cases d <;> decide

theorem charsToNat_append_digit (l : List Char) (c : Char) :
    charsToNat (l ++ [c]) = 10 * charsToNat l + charVal c := by
  unfold charsToNat
  rw [List.foldl_append]
  rfl

theorem charsToNat_cons_zero (l : List Char) :
    charsToNat ('0' :: l) = charsToNat l := by
  unfold charsToNat
  rfl

theorem charsToNat_natCharsAux :
    ∀ fuel n, n < fuel → charsToNat (natCharsAux fuel n) = n := by
  intro fuel
  induction fuel with
  | zero => omega
  | succ fuel ih =>
    intro n hn
    unfold natCharsAux
    by_cases h10 : n < 10
    · rw [if_pos h10]
      show charsToNat ([] ++ [digitCh n]) = n
      rw [charsToNat_append_digit, charVal_digitCh n h10,
        show charsToNat [] = 0 from rfl]
      omega
    · have hdiv : n / 10 < n := Nat.div_lt_self (by omega) (by omega)
      rw [if_neg h10, charsToNat_append_digit, ih (n / 10) (by omega),
        charVal_digitCh (n % 10) (Nat.mod_lt n (by omega))]
      omega

theorem charsToNat_natToChars (n : ℕ) : charsToNat (natToChars n) = n :=
  charsToNat_natCharsAux (n + 1) n (by omega)

theorem charsToNat_replicate_zero :
    ∀ k (l : List Char), charsToNat (List.replicate k '0' ++ l) = charsToNat l := by
  intro k
  induction k with
  | zero => intro l; rfl
  | succ k ih =>
    intro l
    rw [List.replicate_succ, List.cons_append, charsToNat_cons_zero, ih]

theorem charsToNat_padChars (k n : ℕ) : charsToNat (padChars k n) = n := by
  unfold padChars
  rw [charsToNat_replicate_zero, charsToNat_natToChars]

theorem mem_natCharsAux :
    ∀ fuel n c, c ∈ natCharsAux fuel n → ∃ d, d < 10 ∧ c = digitCh d := by
  intro fuel
  induction fuel with
  | zero => intro n c hc; simp [natCharsAux] at hc
  | succ fuel ih =>
    intro n c hc
    unfold natCharsAux at hc
    by_cases h10 : n < 10
    · rw [if_pos h10, List.mem_singleton] at hc
      exact ⟨n, h10, hc⟩
    · rw [if_neg h10, List.mem_append] at hc
      rcases hc with hc | hc
      · exact ih (n / 10) c hc
      · rw [List.mem_singleton] at hc
        exact ⟨n % 10, Nat.mod_lt n (by omega), hc⟩

theorem mem_natToChars (n : ℕ) (c : Char) (h : c ∈ natToChars n) :
    ∃ d, d < 10 ∧ c = digitCh d :=
  mem_natCharsAux (n + 1) n c h

theorem mem_padChars (k n : ℕ) (c : Char) (h : c ∈ padChars k n) :
    ∃ d, d < 10 ∧ c = digitCh d := by
  unfold padChars at h
  rw [List.mem_append] at h
  rcases h with h | h
  · exact ⟨0, by omega, List.eq_of_mem_replicate h⟩
  · exact mem_natToChars n c h

theorem natCharsAux_ne_nil (fuel n : ℕ) (h : 0 < fuel) : natCharsAux fuel n ≠ [] := by
  cases fuel with
  | zero => omega
  | succ fuel =>
    unfold natCharsAux
    by_cases h10 : n < 10
    · rw [if_pos h10]; simp
    · rw [if_neg h10]; simp

theorem natToChars_ne_nil (n : ℕ) : natToChars n ≠ [] :=
  natCharsAux_ne_nil (n + 1) n (by omega)

theorem natCharsAux_small (fuel m : ℕ) (hf : 0 < fuel) (hm : m < 10) :
    natCharsAux fuel m = [digitCh m] := by
  cases fuel with
  | zero => omega
  | succ fuel => unfold natCharsAux; rw [if_pos hm]

theorem natToChars_length_le_two (r : ℕ) (hr : r < 100) :
    (natToChars r).length ≤ 2 := by
  unfold natToChars natCharsAux
  by_cases h10 : r < 10
  · rw [if_pos h10]; simp
  · rw [if_neg h10, natCharsAux_small r (r / 10) (by omega) (by omega)]
    simp

theorem padChars_two_length (r : ℕ) (hr : r < 100) :
    (padChars 2 r).length = 2 := by
  unfold padChars
  rw [List.length_append, List.length_replicate]
  have := natToChars_length_le_two r hr
  omega

theorem splitOnChar_no_sep (sep : Char) :
    ∀ l : List Char, (∀ c ∈ l, c ≠ sep) → splitOnChar sep l = [l] := by
  intro l
  induction l with
  | nil => intro _; rfl
  | cons c cs ih =>
    intro h
    unfold splitOnChar
    rw [if_neg (h c (List.mem_cons_self c cs)),
      ih (fun x hx => h x (List.mem_cons_of_mem c hx))]

theorem splitOnChar_append (sep : Char) (b : List Char) :
    ∀ a : List Char, (∀ c ∈ a, c ≠ sep) →
      splitOnChar sep (a ++ sep :: b) = a :: splitOnChar sep b := by
  intro a
  induction a with
  | nil =>
    intro _
    show splitOnChar sep (sep :: b) = [] :: splitOnChar sep b
    rw [splitOnChar, if_pos rfl]
  | cons c a' ih =>
    intro h
    show splitOnChar sep (c :: (a' ++ sep :: b)) = (c :: a') :: splitOnChar sep b
    rw [splitOnChar, if_neg (h c (List.mem_cons_self c a')),
      ih (fun x hx => h x (List.mem_cons_of_mem c hx))]

theorem dropWhile_no (p : Char → Bool) :
    ∀ l : List Char, (∀ c ∈ l, p c = false) → l.dropWhile p = l := by
  intro l
  induction l with
  | nil => intro _; rfl
  | cons c cs _ =>
    intro h
    rw [List.dropWhile_cons, h c (List.mem_cons_self c cs)]
    simp

theorem strip_right_space (m : List Char) (hne : m ≠ [])
    (h : ∀ c ∈ m, (c == ' ') = false) : stripChars (m ++ [' ']) = m := by
  obtain ⟨c, m', rfl⟩ := List.exists_cons_of_ne_nil hne
  unfold stripChars
  rw [List.cons_append, List.dropWhile_cons, h c (List.mem_cons_self c m')]
  simp only [Bool.false_eq_true, if_false]
  have hrev : (c :: (m' ++ [' '])).reverse = ' ' :: (c :: m').reverse := by simp
  rw [hrev, List.dropWhile_cons, if_pos (show ((' ' == ' ') = true) from rfl)]
  rw [dropWhile_no _ _ (fun x hx => h x (List.mem_reverse.mp hx)), List.reverse_reverse]

theorem strip_left_space (m : List Char)
    (h : ∀ c ∈ m, (c == ' ') = false) : stripChars (' ' :: m) = m := by
  unfold stripChars
  rw [List.dropWhile_cons, if_pos (show ((' ' == ' ') = true) from rfl)]
  rw [dropWhile_no _ _ h, dropWhile_no _ _ (fun x hx => h x (List.mem_reverse.mp hx)),
    List.reverse_reverse]

theorem parseIsoChars_isoChars (dt : Date) : parseIsoChars (isoChars dt) = some dt := by
  obtain ⟨y, m, d⟩ := dt
  unfold parseIsoChars isoChars
  have hy : ∀ c ∈ padChars 4 y, c ≠ '-' := by
    intro c hc
    obtain ⟨dd, hdd, rfl⟩ := mem_padChars 4 y c hc
    exact (digitCh_not_special dd hdd).1
  have hm : ∀ c ∈ padChars 2 m, c ≠ '-' := by
    intro c hc
    obtain ⟨dd, hdd, rfl⟩ := mem_padChars 2 m c hc
    exact (digitCh_not_special dd hdd).1
  have hd : ∀ c ∈ padChars 2 d, c ≠ '-' := by
    intro c hc
    obtain ⟨dd, hdd, rfl⟩ := mem_padChars 2 d c hc
    exact (digitCh_not_special dd hdd).1
  rw [splitOnChar_append '-' (padChars 2 m ++ '-' :: padChars 2 d) (padChars 4 y) hy,
    splitOnChar_append '-' (padChars 2 d) (padChars 2 m) hm,
    splitOnChar_no_sep '-' (padChars 2 d) hd]
  dsimp only
  rw [charsToNat_padChars, charsToNat_padChars, charsToNat_padChars]

theorem parseNonNegVal_centi (q r : ℕ) (hr : r < 100) :
    parseNonNegVal (natToChars q ++ '.' :: padChars 2 r)
      = some ((q : ℚ) + (r : ℚ) / 100) := by
  unfold parseNonNegVal
  have hq : ∀ c ∈ natToChars q, c ≠ '.' := by
    intro c hc
    obtain ⟨dd, hdd, rfl⟩ := mem_natToChars q c hc
    exact (digitCh_not_special dd hdd).2.1
  have hfr : ∀ c ∈ padChars 2 r, c ≠ '.' := by
    intro c hc
    obtain ⟨dd, hdd, rfl⟩ := mem_padChars 2 r c hc
    exact (digitCh_not_special dd hdd).2.1
  rw [splitOnChar_append '.' (padChars 2 r) (natToChars q) hq,
    splitOnChar_no_sep '.' (padChars 2 r) hfr]
  dsimp only
  rw [charsToNat_natToChars, charsToNat_padChars, padChars_two_length r hr]
  norm_num

theorem parseValChars_ratCenti (z : ℤ) :
    parseValChars (ratCentiChars z) = some ((z : ℚ) / 100) := by
  have key : ((z.natAbs : ℕ) : ℚ)
      = 100 * ((z.natAbs / 100 : ℕ) : ℚ) + ((z.natAbs % 100 : ℕ) : ℚ) := by
    exact_mod_cast (Nat.div_add_mod z.natAbs 100).symm
  unfold ratCentiChars
  by_cases hz : z < 0
  · rw [if_pos hz]
    show parseValChars
        ('-' :: (natToChars (z.natAbs / 100) ++ '.' :: padChars 2 (z.natAbs % 100))) = _
    unfold parseValChars
    dsimp only
    rw [if_pos rfl, parseNonNegVal_centi (z.natAbs / 100) (z.natAbs % 100)
      (Nat.mod_lt _ (by omega))]
    have hzq : ((z.natAbs : ℕ) : ℚ) = -(z : ℚ) := by
      rw [Int.cast_natAbs]
      push_cast
      exact abs_of_neg (by exact_mod_cast hz)
    simp only [Option.map_some']
    congr 1
    rw [eq_div_iff (by norm_num : (100 : ℚ) ≠ 0)]
    linarith [key, hzq]
  · rw [if_neg hz, List.nil_append]
    cases hnat : natToChars (z.natAbs / 100) with
    | nil => exact absurd hnat (natToChars_ne_nil _)
    | cons c cs =>
      have hcmem : c ∈ natToChars (z.natAbs / 100) := by
        rw [hnat]
        exact List.mem_cons_self c cs
      obtain ⟨dd, hdd, hc⟩ := mem_natToChars _ c hcmem
      have hcne : c ≠ '-' := by
        rw [hc]
        exact (digitCh_not_special dd hdd).1
      rw [List.cons_append]
      unfold parseValChars
      dsimp only
      rw [if_neg hcne, ← List.cons_append, ← hnat,
        parseNonNegVal_centi (z.natAbs / 100) (z.natAbs % 100) (Nat.mod_lt _ (by omega))]
      have hzq : ((z.natAbs : ℕ) : ℚ) = (z : ℚ) := by
        rw [Int.cast_natAbs]
        push_cast
        exact abs_of_nonneg (by exact_mod_cast not_lt.mp hz)
      congr 1
      rw [eq_div_iff (by norm_num : (100 : ℚ) ≠ 0)]
      linarith [key, hzq]

theorem abs_rhe_sub (x : ℚ) : |(rhe x : ℚ) - x| ≤ 1 / 2 := by
  unfold rhe
  by_cases h : Int.fract x = 1 / 2
  · have hx : x = (⌊x⌋ : ℚ) + 1 / 2 := by
      have h2 : x - ⌊x⌋ = 1 / 2 := by
        rw [Int.self_sub_floor]
        exact h
      linarith
    rw [if_pos h]
    by_cases he : ⌊x⌋ % 2 = 0
    · rw [if_pos he, abs_le]
      constructor <;> linarith
    · rw [if_neg he]
      push_cast
      rw [abs_le]
      constructor <;> linarith
  · rw [if_neg h, abs_sub_comm]
    exact abs_sub_round x

theorem abs_round2_sub (x : ℚ) : |round2 x - x| ≤ 5 / 1000 := by
  have h := abs_rhe_sub (x * 100)
  have heq : round2 x - x = ((rhe (x * 100) : ℚ) - x * 100) / 100 := by
    unfold round2
    ring
  have h100 : |(100 : ℚ)| = 100 := by norm_num
  rw [heq, abs_div, h100]
  linarith

theorem mem_isoChars (dt : Date) (c : Char) (h : c ∈ isoChars dt) :
    c = '-' ∨ ∃ d, d < 10 ∧ c = digitCh d := by
  unfold isoChars at h
  simp only [List.mem_append, List.mem_cons] at h
  rcases h with h | h | h | h | h
  · exact Or.inr (mem_padChars _ _ _ h)
  · exact Or.inl h
  · exact Or.inr (mem_padChars _ _ _ h)
  · exact Or.inl h
  · exact Or.inr (mem_padChars _ _ _ h)

theorem mem_ratCentiChars (z : ℤ) (c : Char) (h : c ∈ ratCentiChars z) :
    c = '-' ∨ c = '.' ∨ ∃ d, d < 10 ∧ c = digitCh d := by
  unfold ratCentiChars at h
  simp only [List.mem_append, List.mem_cons] at h
  rcases h with h | h | h | h
  · by_cases hz : z < 0
    · rw [if_pos hz, List.mem_singleton] at h
      exact Or.inl h
    · rw [if_neg hz] at h
      simp at h
  · exact Or.inr (Or.inr (mem_natToChars _ _ h))
  · exact Or.inr (Or.inl h)
  · exact Or.inr (Or.inr (mem_padChars _ _ _ h))

theorem isoChars_ne_nil (dt : Date) : isoChars dt ≠ [] := by
  unfold isoChars
  simp

/-- Claim C6: building the dropdown label of an observation and re-parsing
it (date substring before the bar, value substring after it) recovers the
date exactly and the value up to the 2-decimal rounding, which moves the
value by at most `0.005`. -/
theorem dropdown_label_roundtrip (o : Observation) :
    parseDropdownLabel (dropdownLabel o) = some (o.date, round2 o.value)
    ∧ |round2 o.value - o.value| ≤ 5 / 1000 := by
  constructor
  · unfold dropdownLabel parseDropdownLabel
    have hA_bar : ∀ c ∈ isoChars o.date ++ [' '], c ≠ '|' := by
      intro c hc
      rw [List.mem_append, List.mem_singleton] at hc
      rcases hc with hc | rfl
      · rcases mem_isoChars o.date c hc with rfl | ⟨d, hd, rfl⟩
        · decide
        · exact (digitCh_not_special d hd).2.2.1
      · decide
    have hB_bar : ∀ c ∈ ' ' :: ratCentiChars (rhe (o.value * 100)), c ≠ '|' := by
      intro c hc
      rw [List.mem_cons] at hc
      rcases hc with rfl | hc
      · decide
      · rcases mem_ratCentiChars _ c hc with rfl | rfl | ⟨d, hd, rfl⟩
        · decide
        · decide
        · exact (digitCh_not_special d hd).2.2.1
    have hAspace : ∀ c ∈ isoChars o.date, (c == ' ') = false := by
      intro c hc
      rcases mem_isoChars o.date c hc with rfl | ⟨d, hd, rfl⟩
      · decide
      · exact (digitCh_not_special d hd).2.2.2
    have hBspace : ∀ c ∈ ratCentiChars (rhe (o.value * 100)), (c == ' ') = false := by
      intro c hc
      rcases mem_ratCentiChars _ c hc with rfl | rfl | ⟨d, hd, rfl⟩
      · decide
      · decide
      · exact (digitCh_not_special d hd).2.2.2
    have hlabel : isoChars o.date ++ ' ' :: '|' :: ' ' :: ratCentiChars (rhe (o.value * 100))
        = (isoChars o.date ++ [' ']) ++ '|' :: (' ' :: ratCentiChars (rhe (o.value * 100))) := by
      simp
    rw [hlabel,
      splitOnChar_append '|' (' ' :: ratCentiChars (rhe (o.value * 100)))
        (isoChars o.date ++ [' ']) hA_bar,
      splitOnChar_no_sep '|' (' ' :: ratCentiChars (rhe (o.value * 100))) hB_bar]
    dsimp only
    rw [strip_right_space (isoChars o.date) (isoChars_ne_nil o.date) hAspace,
      strip_left_space (ratCentiChars (rhe (o.value * 100))) hBspace,
      parseIsoChars_isoChars o.date, parseValChars_ratCenti (rhe (o.value * 100))]
    dsimp only
    rfl
  · exact abs_round2_sub o.value

/-- Witness for C6 at a concrete observation. -/
theorem dropdown_label_roundtrip_witness :
    parseDropdownLabel (dropdownLabel ⟨⟨2024, 1, 5⟩, 3 / 2⟩)
      = some (⟨2024, 1, 5⟩, round2 (3 / 2)) :=
  (dropdown_label_roundtrip ⟨⟨2024, 1, 5⟩, 3 / 2⟩).1

/- ### Claim C2: the nearest-observation lookup mixes labels and positions -/

theorem nearestBest_choice (t : ℚ) :
    ∀ (l : List Row) (b : Row), nearestBest t b l = b ∨ nearestBest t b l ∈ l := by
  intro l
  induction l with
  | nil => intro b; exact Or.inl rfl
  | cons r rs ih =>
    intro b
    simp only [nearestBest]
    by_cases hc : ratAbs (r.value - t) < ratAbs (b.value - t)
    · rw [if_pos hc]
      rcases ih r with h | h
      · refine Or.inr ?_
        rw [h]
        exact List.mem_cons_self r rs
      · exact Or.inr (List.mem_cons_of_mem r h)
    · rw [if_neg hc]
      rcases ih b with h | h
      · exact Or.inl h
      · exact Or.inr (List.mem_cons_of_mem r h)

theorem nearestBest_min (t : ℚ) :
    ∀ (l : List Row) (b : Row),
      ratAbs ((nearestBest t b l).value - t) ≤ ratAbs (b.value - t)
      ∧ ∀ r ∈ l, ratAbs ((nearestBest t b l).value - t) ≤ ratAbs (r.value - t) := by
  intro l
  induction l with
  | nil => intro b; exact ⟨le_refl _, by simp⟩
  | cons r rs ih =>
    intro b
    simp only [nearestBest]
    by_cases hc : ratAbs (r.value - t) < ratAbs (b.value - t)
    · rw [if_pos hc]
      obtain ⟨h1, h2⟩ := ih r
      refine ⟨le_trans h1 (le_of_lt hc), ?_⟩
      intro x hx
      rcases List.mem_cons.mp hx with rfl | hx
      · exact h1
      · exact h2 x hx
    · rw [if_neg hc]
      obtain ⟨h1, h2⟩ := ih b
      refine ⟨h1, ?_⟩
      intro x hx
      rcases List.mem_cons.mp hx with rfl | hx
      · exact le_trans h1 (not_lt.mp hc)
      · exact h2 x hx

/-- Supporting fact for C2: on a frame whose labels coincide with positions
(the situation when the CSV was already sorted by date), the lookup does
return a member of the frame minimizing the absolute difference, which pins
the divergence below on the label/position confusion. -/
theorem find_nearest_correct_on_aligned_labels (t : ℚ) (df : List Row)
    (hne : df ≠ [])
    (hlab : ∀ (i : ℕ) (h : i < df.length), (df.get ⟨i, h⟩).label = i) :
    ∃ r ∈ df, find_nearest_value_and_date t df = some (r.value, r.date)
      ∧ ∀ x ∈ df, ratAbs (r.value - t) ≤ ratAbs (x.value - t) := by
  obtain ⟨h0, rest, rfl⟩ := List.exists_cons_of_ne_nil hne
  set r := nearestBest t h0 rest with hr
  have hmem : r ∈ h0 :: rest := by
    rcases nearestBest_choice t rest h0 with h | h
    · rw [hr, h]
      exact List.mem_cons_self h0 rest
    · exact List.mem_cons_of_mem h0 h
  obtain ⟨h1, h2⟩ := nearestBest_min t rest h0
  refine ⟨r, hmem, ?_, ?_⟩
  · obtain ⟨i, hi⟩ := List.mem_iff_get.mp hmem
    have hilab : r.label = i := by
      rw [← hi]
      exact hlab i.1 i.2
    unfold find_nearest_value_and_date idxminAbs
    dsimp only
    rw [← hr, hilab, List.get?_eq_get i.2, hi]
    rfl
  · intro x hx
    rcases List.mem_cons.mp hx with rfl | hx
    · exact h1
    · exact h2 x hx

/-- A CSV whose rows are not in chronological order: row 0 is the latest
date.  `read_csv` labels the rows 0, 1, 2 in CSV order. -/
def exCsv : List (Date × ℚ) :=
  [(⟨2024, 1, 3⟩, 30), (⟨2024, 1, 1⟩, 10), (⟨2024, 1, 2⟩, 20)]

/-- The working frame `main` builds from `exCsv`: sorted by date, original
index labels preserved (selecting the latest date makes the filter keep
every row, so this is also the filtered frame the lookup receives). -/
def exFrame : List Row :=
  sortByDate (labelRows exCsv)

unseal Rat.add Rat.sub in
/-- Claim C2, failing input: on `exFrame` with target `30`, `idxmin` returns
the *label* `0` (the row holding value `30`), but `iloc` then takes
*position* `0`, the row holding value `10` — so the function returns an
observation at distance `20` from the target while a member at distance `0`
exists: it is not the argmin of `|o.value - t|`, refuting the claim. -/
theorem find_nearest_idxmin_iloc_bug :
    exFrame = [⟨1, ⟨2024, 1, 1⟩, 10⟩, ⟨2, ⟨2024, 1, 2⟩, 20⟩, ⟨0, ⟨2024, 1, 3⟩, 30⟩]
    ∧ find_nearest_value_and_date 30 exFrame = some (10, ⟨2024, 1, 1⟩)
    ∧ (⟨0, ⟨2024, 1, 3⟩, 30⟩ : Row) ∈ exFrame
    ∧ ¬ (|(10 : ℚ) - 30| ≤ |(30 : ℚ) - 30|) := by
  refine ⟨by decide, by decide, by decide, by norm_num⟩

/- ### Claim C8: the degenerate fit is rendered, not reported -/

/-- A successfully fetched frame with both required columns and one row. -/
def oneRowFrame : RawFrame :=
  ⟨["Date", "NetMargin"], [(⟨2024, 1, 1⟩, 10)]⟩

/-- Claim C8, counterexample: on a single-row frame the iteration still
renders (no "insufficient data" condition is surfaced) and the variance the
renderer works with is `NaN` (`none`): the claim that the program surfaces
an explicit condition instead of rendering is false. -/
theorem insufficient_data_not_surfaced_cex :
    isRendered (runIteration (some oneRowFrame) 0) = true
    ∧ renderedVariance (runIteration (some oneRowFrame) 0) = some none := by
  refine ⟨by decide, by decide⟩

/-- Claim C8, amended: when the filtered series has a single row, the sample
standard deviation (`N-1` denominator) is undefined (`NaN`, modelled
`none`), and the program silently renders with it; no explicit
"insufficient data for distribution fit" condition is surfaced. -/
theorem insufficient_data_silent_render (cols : List String) (d : Date) (v : ℚ)
    (h1 : "NetMargin" ∈ cols) (h2 : "Date" ∈ cols) (choice : ℕ) :
    isRendered (runIteration (some ⟨cols, [(d, v)]⟩) choice) = true
    ∧ renderedVariance (runIteration (some ⟨cols, [(d, v)]⟩) choice) = some none := by
  have hcols : ¬("NetMargin" ∉ cols ∨ "Date" ∉ cols) := by
    push_neg
    exact ⟨h1, h2⟩
  have hsort : sortByDate (labelRows [(d, v)]) = [⟨0, d, v⟩] := rfl
  have hsel : ∀ ch : ℕ, List.getD [(⟨0, d, v⟩ : Row)] ch ⟨0, d, v⟩ = ⟨0, d, v⟩ := by
    intro ch
    cases ch with
    | zero => rfl
    | succ n => simp [List.getD]
  have hfilter : filterRows d [(⟨0, d, v⟩ : Row)] = [⟨0, d, v⟩] := by
    unfold filterRows
    rw [List.filter_eq_self.mpr]
    intro r hr
    rw [List.mem_singleton] at hr
    rw [hr]
    exact Date.le_refl d
  unfold runIteration
  dsimp only
  rw [if_neg hcols]
  rw [hsort]
  dsimp only
  rw [hsel choice, hfilter]
  refine ⟨rfl, ?_⟩
  show some (sampleVariance [v]) = some none
  rfl

/-- Witness for the amended theorem of C8 at a concrete input. -/
theorem insufficient_data_silent_render_witness :
    isRendered
        (runIteration (some ⟨["NetMargin", "Date"], [(⟨2024, 2, 2⟩, 7)]⟩) 3) = true
    ∧ renderedVariance
        (runIteration (some ⟨["NetMargin", "Date"], [(⟨2024, 2, 2⟩, 7)]⟩) 3) = some none :=
  insufficient_data_silent_render ["NetMargin", "Date"] ⟨2024, 2, 2⟩ 7
    (by decide) (by decide) 3

/- ### Claim C9: fetch and validation failures abort cleanly -/

/-- Claim C9: a failed fetch/parse yields the fetch-error outcome and a frame
missing a required column yields the validation-error outcome; in both
cases the iteration aborts without reaching the renderer, so no statistics
or plot are produced. -/
theorem fetch_or_column_error_aborts (choice : ℕ) (frame : RawFrame)
    (h : "NetMargin" ∉ frame.columns ∨ "Date" ∉ frame.columns) :
    runIteration none choice = Outcome.fetchError
    ∧ isRendered (runIteration none choice) = false
    ∧ runIteration (some frame) choice = Outcome.columnError
    ∧ isRendered (runIteration (some frame) choice) = false := by
  have hcol : runIteration (some frame) choice = Outcome.columnError := by
    unfold runIteration
    dsimp only
    rw [if_pos h]
  exact ⟨rfl, rfl, hcol, by rw [hcol]; rfl⟩

/-- Witness for C9 at a concrete input. -/
theorem fetch_or_column_error_aborts_witness :
    runIteration none 0 = Outcome.fetchError
    ∧ runIteration (some ⟨["Margin"], []⟩) 0 = Outcome.columnError :=
  ⟨(fetch_or_column_error_aborts 0 ⟨["Margin"], []⟩ (by decide)).1,
   (fetch_or_column_error_aborts 0 ⟨["Margin"], []⟩ (by decide)).2.2.1⟩

end BellCurve
